import Mathlib

/-!
Verification of the crontab schedule parser (`synology/util/schedule_parser.go`).

The Go code is shallowly embedded: strings are modelled as `List Char`
(every separator used by the source is a single ASCII character, so Go's
`strings.Split`, `strings.Fields` and `strings.FieldsFunc` are modelled by
character-list splitters with identical semantics); `int64` bitmask and
repeat values are modelled as their two's-complement bit pattern, a `Nat`
below `2 ^ 64`; fallible functions return `Except ParseErr` where the Go
code returns `(T, error)`, with one `ParseErr` constructor per distinct
`fmt.Errorf` site.
-/

namespace Cron

/-- Error kinds, one per distinct error produced by the Go source. -/
inductive ParseErr where
  | emptySpec
  | fieldCount (lower upper actual : Nat)
  | tooManyHyphens
  | tooManySlashes
  | intParseFailure
  | negativeNumber
  | rangeBelowMinimum
  | rangeAboveMaximum
  | rangeInverted
  | nonPositiveStep
  | invalidDuration
  | unrecognizedDescriptor
deriving DecidableEq, Repr

/-- `Schedule` from the source: six 64-bit field bitmasks plus three
repeat-interval values, each an `int64` modelled by its bit pattern.
The `*time.Location` override is never set by the parser and is modelled
as an `Option Unit` that stays `none`. -/
structure Schedule where
  Second : Nat
  Minute : Nat
  Hour : Nat
  Dom : Nat
  Month : Nat
  Dow : Nat
  RepeatHour : Nat
  RepeatMin : Nat
  RepeatDate : Nat
  Location : Option Unit
deriving DecidableEq, Repr

/-- `bounds` from the source: acceptable range plus name table for a field. -/
structure Bounds where
  min : Nat
  max : Nat
  names : List (List Char × Nat)
deriving DecidableEq, Repr

/-- The `seconds` bounds. -/
def seconds : Bounds := ⟨0, 59, []⟩

/-- The `minutes` bounds. -/
def minutes : Bounds := ⟨0, 59, []⟩

/-- The `hours` bounds. -/
def hours : Bounds := ⟨0, 23, []⟩

/-- The `dom` (day-of-month) bounds. -/
def dom : Bounds := ⟨1, 31, []⟩

/-- The `months` bounds with its name table. -/
def months : Bounds :=
  ⟨1, 12,
    [(['j','a','n'], 1), (['f','e','b'], 2), (['m','a','r'], 3),
     (['a','p','r'], 4), (['m','a','y'], 5), (['j','u','n'], 6),
     (['j','u','l'], 7), (['a','u','g'], 8), (['s','e','p'], 9),
     (['o','c','t'], 10), (['n','o','v'], 11), (['d','e','c'], 12)]⟩

/-- The `dow` (day-of-week) bounds with its name table. -/
def dow : Bounds :=
  ⟨0, 6,
    [(['s','u','n'], 0), (['m','o','n'], 1), (['t','u','e'], 2),
     (['w','e','d'], 3), (['t','h','u'], 4), (['f','r','i'], 5),
     (['s','a','t'], 6)]⟩

/-- `1 << 63`, the reserved star bit (as the bit pattern of the Go `int64`). -/
def starBit : Nat := 1 <<< 63

/-- `2 ^ 64`, the word size used to truncate shifts the way Go `int64` does. -/
def W : Nat := 2 ^ 64

/-- All-ones 64-bit word (`math.MaxUint64` reinterpreted as a bit pattern,
what `toInt64(math.MaxUint64)` produces in the source). -/
def ones64 : Nat := 2 ^ 64 - 1

/-- Fuel-driven body of the loop branch of `getBits` (`for i := lowerLimit;
i <= upperLimit; i += step { bits |= 1 << i }`).  Structural recursion on a
fuel counter keeps the definition kernel-computable; `loopBits` passes
`upperLimit + 1 - lowerLimit` fuel, which covers every iteration whenever
`step ≥ 1` (a zero step, on which the Go loop would not terminate, is
rejected by `getRange` before `getBits` is ever called). -/
def loopBitsGo : Nat → Nat → Nat → Nat → Nat
  | 0, _, _, _ => 0
  | fuel + 1, lowerLimit, upperLimit, step =>
    if upperLimit < lowerLimit then 0
    else ((1 <<< lowerLimit) % W) ||| loopBitsGo fuel (lowerLimit + step) upperLimit step

/-- The loop branch of `getBits` from the source. -/
def loopBits (lowerLimit upperLimit step : Nat) : Nat :=
  loopBitsGo (upperLimit + 1 - lowerLimit) lowerLimit upperLimit step

/-- `getBits` from the source: all bits in `[lowerLimit, upperLimit]` modulo
the step.  For step 1 it uses the closed-form double-mask expression
`^(MaxUint64 << (upperLimit+1)) & (MaxUint64 << lowerLimit)`; each shift and
the complement are truncated to 64 bits exactly as Go `int64` arithmetic is. -/
def getBits (lowerLimit upperLimit step : Nat) : Nat :=
  if step = 1 then
    (ones64 ^^^ ((ones64 <<< (upperLimit + 1)) % W)) &&& ((ones64 <<< lowerLimit) % W)
  else
    loopBits lowerLimit upperLimit step

/-- `all` from the source: every bit within the bounds, plus the star bit. -/
def all (r : Bounds) : Nat := getBits r.min r.max 1 ||| starBit

/-- Split a character list at every occurrence of a separator character:
the model of Go `strings.Split(s, sep)` for a one-character `sep`.
Never returns `[]`; splitting the empty string yields `[[]]`, as in Go. -/
def splitOnChar (sep : Char) : List Char → List (List Char)
  | [] => [[]]
  | c :: cs =>
    let r := splitOnChar sep cs
    if c = sep then [] :: r else (c :: r.headD []) :: r.tail

/-- Model of Go `strings.FieldsFunc(s, r == ',')` used by `getField`:
comma-separated pieces with empty pieces dropped. -/
def commaPieces (s : List Char) : List (List Char) :=
  (splitOnChar ',' s).filter (fun piece => piece ≠ [])

/-- Go `unicode.IsSpace` restricted to the Latin-1 range (the only
whitespace that can appear in a schedule spec). -/
def isSpaceChar (c : Char) : Bool :=
  c = ' ' ∨ c = '\t' ∨ c = '\n' ∨ c = '\x0b' ∨ c = '\x0c' ∨ c = '\r' ∨
    c = '\u0085' ∨ c = ' '

/-- Split at every character satisfying a predicate (generalises
`splitOnChar` to a character class). -/
def splitOnPred (p : Char → Bool) : List Char → List (List Char)
  | [] => [[]]
  | c :: cs =>
    let r := splitOnPred p cs
    if p c then [] :: r else (c :: r.headD []) :: r.tail

/-- Model of Go `strings.Fields`: whitespace-separated fields, empty
pieces dropped. -/
def fieldsSplit (s : List Char) : List (List Char) :=
  (splitOnPred isSpaceChar s).filter (fun piece => piece ≠ [])

/-- ASCII lower-casing, the effect of `strings.ToLower` on the name
tokens the parser can meet. -/
def toLowerChar (c : Char) : Char :=
  if 'A' ≤ c ∧ c ≤ 'Z' then Char.ofNat (c.toNat + 32) else c

/-- Digit accumulator for `atoi`. -/
def digitsAccum (acc : Nat) : List Char → Option Nat
  | [] => some acc
  | c :: cs => if c.isDigit then digitsAccum (acc * 10 + (c.toNat - 48)) cs else none

/-- Parse a non-empty all-digit string. -/
def parseDigits : List Char → Option Nat
  | [] => none
  | l => digitsAccum 0 l

/-- Largest `int64`, the overflow cutoff of `strconv.Atoi` on 64-bit. -/
def maxInt64 : Nat := 2 ^ 63 - 1

/-- Model of Go `strconv.Atoi`: optional sign, decimal digits, error on
empty input, junk, or `int64` overflow. -/
def atoi : List Char → Option Int
  | [] => none
  | c :: rest =>
    if c = '-' then
      match parseDigits rest with
      | none => none
      | some n => if n ≤ 2 ^ 63 then some (-(n : Int)) else none
    else if c = '+' then
      match parseDigits rest with
      | none => none
      | some n => if n ≤ maxInt64 then some (n : Int) else none
    else
      match parseDigits (c :: rest) with
      | none => none
      | some n => if n ≤ maxInt64 then some (n : Int) else none

/-- `mustParseInt` from the source: `Atoi`, then reject negative numbers. -/
def mustParseInt (expr : List Char) : Except ParseErr Nat :=
  match atoi expr with
  | none => .error .intParseFailure
  | some num => if num < 0 then .error .negativeNumber else .ok num.toNat

/-- `parseIntOrName` from the source: case-insensitive name lookup first,
then numeric parse. -/
def parseIntOrName (expr : List Char) (names : List (List Char × Nat)) :
    Except ParseErr Nat :=
  match names.lookup (expr.map toLowerChar) with
  | some namedInt => .ok namedInt
  | none => mustParseInt expr

/-- `getRange` from the source: evaluate one `range ["/" step]` expression
against bounds.  The split on `/` happens first, then the left side splits
on `-`; a bare `*` or `?` marks the full range and contributes the star
bit; a step with a single left-hand value overrides the end to the bounds
maximum; then the four range validations run in the source's order. -/
def getRange (expr : List Char) (r : Bounds) : Except ParseErr Nat :=
  let rangeAndStep := splitOnChar '/' expr
  let lowAndHigh := splitOnChar '-' (rangeAndStep.headD [])
  let singleDigit := lowAndHigh.length = 1
  let startEndExtra : Except ParseErr (Nat × Nat × Nat) :=
    if lowAndHigh.headD [] = ['*'] ∨ lowAndHigh.headD [] = ['?'] then
      .ok (r.min, r.max, starBit)
    else
      match parseIntOrName (lowAndHigh.headD []) r.names with
      | .error e => .error e
      | .ok start =>
        match lowAndHigh with
        | [_] => .ok (start, start, 0)
        | [_, high] =>
          match parseIntOrName high r.names with
          | .error e => .error e
          | .ok endVal => .ok (start, endVal, 0)
        | _ => .error .tooManyHyphens
  match startEndExtra with
  | .error e => .error e
  | .ok (start, end1, extra) =>
    let stepAndEnd : Except ParseErr (Nat × Nat) :=
      match rangeAndStep with
      | [_] => .ok (1, end1)
      | [_, stepStr] =>
        match mustParseInt stepStr with
        | .error e => .error e
        | .ok step => .ok (step, if singleDigit then r.max else end1)
      | _ => .error .tooManySlashes
    match stepAndEnd with
    | .error e => .error e
    | .ok (step, end2) =>
      if start < r.min then .error .rangeBelowMinimum
      else if r.max < end2 then .error .rangeAboveMaximum
      else if end2 < start then .error .rangeInverted
      else if step = 0 then .error .nonPositiveStep
      else .ok (getBits start end2 step ||| extra)

/-- Fold of `getField`'s loop: OR the bits of each comma piece, stopping at
the first error (the Go version returns the partial bits alongside the
error, but every caller discards them). -/
def getFieldAux (r : Bounds) : List (List Char) → Nat → Except ParseErr Nat
  | [], bits => .ok bits
  | expr :: rest, bits =>
    match getRange expr r with
    | .error e => .error e
    | .ok bit => getFieldAux r rest (bits ||| bit)

/-- `getField` from the source: a field is a comma-separated list of
ranges; empty pieces are dropped by `strings.FieldsFunc`. -/
def getField (field : List Char) (r : Bounds) : Except ParseErr Nat :=
  getFieldAux r (commaPieces field) 0

/-- Nanoseconds per `time.Minute`. -/
def minuteNs : Int := 60 * 1000000000

/-- Nanoseconds per `time.Hour`. -/
def hourNs : Int := 3600 * 1000000000

/-- Modelled from the spec: the exact rational ceiling of `a / b` for
positive `b`, the reading of "ceil" in the specification's description of
the `@every` classification.  The program instead computes
`math.Ceil` over `float64` arithmetic (`f64ceilInt` below), which loses
sub-unit remainders that fall below half an ulp; this exact version is kept
only to exhibit where the two differ. -/
def ceilDivInt (a b : Int) : Int := -(Int.fdiv (-a) b)

/-- Two's-complement bit pattern of an `int64` value as a `Nat`. -/
def int64Pat (i : Int) : Nat := (Int.emod i (2 ^ 64)).toNat

/-- Fuel-driven floor of the base-2 logarithm (`n` fuel always suffices,
since the argument halves each step); kept structural so the kernel can
evaluate it. -/
def log2Go : Nat → Nat → Nat
  | 0, _ => 0
  | fuel + 1, n => if n ≥ 2 then log2Go fuel (n / 2) + 1 else 0

/-- Floor of the base-2 logarithm. -/
def log2F (n : Nat) : Nat := log2Go n n

/-- A finite IEEE-754 binary64 value, represented exactly as a mantissa
times a power of two.  Every `float64` the descriptor resolver meets is
finite and in the normal range, so neither infinities, NaNs, subnormals nor
overflow need representing. -/
structure F64 where
  m : Int
  e : Int
deriving DecidableEq, Repr

/-- Round the rational `num / den` (`den > 0`) to the nearest binary64 —
53-bit mantissa, round-to-nearest, ties-to-even — for values in the normal
range.  This is the exact rounding IEEE-754 prescribes for every basic
operation, so building each `float64` operation as "exact rational result,
then round" reproduces Go's `float64` arithmetic bit for bit. -/
def roundRatToF64 (num : Int) (den : Nat) : F64 :=
  if num = 0 then ⟨0, 0⟩
  else
    let N : Nat := num.natAbs
    let k1 : Int := (log2F N : Int) - (log2F den : Int)
    let lePow2 : Int → Bool := fun k =>
      if 0 ≤ k then den * 2 ^ k.toNat ≤ N else den ≤ N * 2 ^ (-k).toNat
    let k : Int := if lePow2 k1 then k1 else k1 - 1
    let e : Int := k - 52
    let scaled : Nat × Nat :=
      if 0 ≤ e then (N, den * 2 ^ e.toNat) else (N * 2 ^ (-e).toNat, den)
    let m0 := scaled.1 / scaled.2
    let r := scaled.1 % scaled.2
    let m : Nat :=
      if 2 * r < scaled.2 then m0
      else if scaled.2 < 2 * r then m0 + 1
      else if m0 % 2 = 0 then m0 else m0 + 1
    if num < 0 then ⟨-(m : Int), e⟩ else ⟨(m : Int), e⟩

/-- Go's conversion of an integer to `float64` (round to nearest). -/
def f64ofInt (i : Int) : F64 := roundRatToF64 i 1

/-- `float64` addition: exact dyadic sum, then IEEE rounding. -/
def f64add (a b : F64) : F64 :=
  let emin := min a.e b.e
  let M := a.m * 2 ^ (a.e - emin).toNat + b.m * 2 ^ (b.e - emin).toNat
  let r := roundRatToF64 M 1
  ⟨r.m, r.e + emin⟩

/-- `float64` multiplication: exact product, then IEEE rounding. -/
def f64mul (a b : F64) : F64 :=
  let r := roundRatToF64 (a.m * b.m) 1
  ⟨r.m, r.e + a.e + b.e⟩

/-- `float64` division: exact rational quotient, then IEEE rounding. -/
def f64div (a b : F64) : F64 :=
  let num := if b.m < 0 then -a.m else a.m
  let den := b.m.natAbs
  let r := roundRatToF64 num den
  ⟨r.m, r.e + a.e - b.e⟩

/-- `math.Ceil` followed by Go's `int64(...)` conversion: the ceiling of
the represented value (exact on `float64`, and integral, so the `int64`
conversion is the identity on it). -/
def f64ceilInt (x : F64) : Int :=
  if 0 ≤ x.e then x.m * 2 ^ x.e.toNat
  else -(Int.fdiv (-x.m) (2 ^ (-x.e).toNat))

/-- Go's conversion of a non-negative `float64` to an unsigned integer:
truncation toward zero. -/
def f64truncNat (x : F64) : Nat :=
  (if 0 ≤ x.e then x.m * 2 ^ x.e.toNat else Int.div x.m (2 ^ (-x.e).toNat)).toNat

/-- `Duration.Minutes` from the Go standard library:
`float64(d / Minute) + float64(d % Minute) / (60 * 1e9)`, with `/` and `%`
the `int64` truncated division and remainder and all arithmetic `float64`. -/
def f64Minutes (d : Int) : F64 :=
  f64add (f64ofInt (Int.div d 60000000000))
    (f64div (f64ofInt (Int.mod d 60000000000)) (f64ofInt 60000000000))

/-- `Duration.Hours` from the Go standard library:
`float64(d / Hour) + float64(d % Hour) / (60 * 60 * 1e9)`. -/
def f64Hours (d : Int) : F64 :=
  f64add (f64ofInt (Int.div d 3600000000000))
    (f64div (f64ofInt (Int.mod d 3600000000000)) (f64ofInt 3600000000000))

/-- Unit table of Go `time.ParseDuration`: suffix → nanoseconds. -/
def unitTable : List (List Char × Nat) :=
  [(['n','s'], 1), (['u','s'], 1000), (['µ','s'], 1000), (['μ','s'], 1000),
   (['m','s'], 1000000), (['s'], 1000000000),
   (['m'], 60000000000), (['h'], 3600000000000)]

/-- `leadingInt` from Go's `time` package, applied to the digit prefix:
accumulate decimal digits into a `uint64`, erroring when the running value
would pass `1 << 63` (the pre-check against `1<<63/10` and the post-check
against `1<<63` mirror the source). -/
def leadingIntGo : List Char → Nat → Option Nat
  | [], x => some x
  | c :: cs, x =>
    if x > 2 ^ 63 / 10 then none
    else
      let y := x * 10 + (c.toNat - 48)
      if y > 2 ^ 63 then none
      else leadingIntGo cs y

/-- `leadingFraction` from Go's `time` package, applied to the digit
prefix: like `leadingIntGo`, but on overflow the remaining digits are
silently consumed without growing the value or the scale. -/
def leadingFractionGo : List Char → Nat → Nat → Bool → Nat × Nat
  | [], x, scale, _ => (x, scale)
  | c :: cs, x, scale, overflow =>
    if overflow then leadingFractionGo cs x scale true
    else if x > (2 ^ 63 - 1) / 10 then leadingFractionGo cs x scale true
    else
      let y := x * 10 + (c.toNat - 48)
      if y > 2 ^ 63 then leadingFractionGo cs x scale true
      else leadingFractionGo cs y (scale * 10) false

/-- One pass of the `time.ParseDuration` component loop, with fuel (each
iteration consumes at least one character, so `length + 1` fuel always
suffices).  A fractional part contributes
`uint64(float64(f) * (float64(unit) / scale))`, computed here with the
exact `float64` model; the scale accumulated by `leadingFractionGo` is a
power of ten no larger than `10^19`, every one of which `float64`
represents exactly, so passing it through `f64ofInt` matches Go's
float-accumulated scale.  Overflow checks on the unit multiplication, the
fraction addition and the running total mirror the source. -/
def durLoop : Nat → List Char → Option Nat
  | _, [] => some 0
  | 0, _ => none
  | fuel + 1, l =>
    if ¬(l.headD ' ' = '.' ∨ (l.headD ' ').isDigit) then none
    else
      let ds := l.takeWhile Char.isDigit
      let afterInt := l.drop ds.length
      let pre := ds ≠ []
      match leadingIntGo ds 0 with
      | none => none
      | some v =>
        let fracState : Nat × Nat × List Char × Bool :=
          match afterInt with
          | '.' :: r =>
            let fs := r.takeWhile Char.isDigit
            let fsc := leadingFractionGo fs 0 1 false
            (fsc.1, fsc.2, r.drop fs.length, fs ≠ [])
          | _ => (0, 1, afterInt, false)
        match fracState with
        | (f, scale, afterFrac, post) =>
          if ¬pre ∧ ¬post then none
          else
            let us := afterFrac.takeWhile (fun c => ¬(c = '.' ∨ c.isDigit))
            let afterUnit := afterFrac.drop us.length
            if us = [] then none
            else
              match unitTable.lookup us with
              | none => none
              | some unit =>
                if v > 2 ^ 63 / unit then none
                else
                  let v1 := v * unit
                  let v2 :=
                    if 0 < f then
                      v1 + f64truncNat (f64mul (f64ofInt (f : Int))
                        (f64div (f64ofInt (unit : Int)) (f64ofInt (scale : Int))))
                    else v1
                  if 0 < f ∧ 2 ^ 63 < v2 then none
                  else
                    match durLoop fuel afterUnit with
                    | none => none
                    | some tot =>
                      let d2 := v2 + tot
                      if 2 ^ 63 < d2 then none else some d2

/-- Model of Go `time.ParseDuration` (standard library, outside this
repository): optional sign, then a sequence of `number [fraction] unit`
components; `"0"` alone is zero; empty or malformed input is an error.
The accumulated magnitude may reach `1 << 63` only for a negative
duration (`-2^63` nanoseconds is a valid `int64`), as in the source's
final checks. -/
def parseDuration (s : List Char) : Option Int :=
  match s with
  | [] => none
  | _ =>
    let signAndRest : Bool × List Char :=
      match s with
      | '-' :: r => (true, r)
      | '+' :: r => (false, r)
      | r => (false, r)
    match signAndRest with
    | (neg, s1) =>
      if s1 = ['0'] then some 0
      else if s1 = [] then none
      else
        match durLoop (s1.length + 1) s1 with
        | none => none
        | some tot =>
          if neg then some (-(tot : Int))
          else if tot > maxInt64 then none
          else some (tot : Int)

/-- `parseDescriptor` from the source: the fixed `@`-descriptors map to
fixed field schedules with the `RepeatDate` marker `1001`; `"@every "` is
a prefix match whose suffix is fed to `time.ParseDuration` and classified
by magnitude into exactly one repeat field. -/
def parseDescriptor (descriptor : List Char) : Except ParseErr Schedule :=
  if descriptor = ['@','y','e','a','r','l','y'] ∨ descriptor = ['@','a','n','n','u','a','l','l','y'] then
    .ok ⟨1 <<< seconds.min, 1 <<< minutes.min, 1 <<< hours.min,
         1 <<< dom.min, 1 <<< months.min, all dow, 0, 0, 1001, none⟩
  else if descriptor = ['@','m','o','n','t','h','l','y'] then
    .ok ⟨1 <<< seconds.min, 1 <<< minutes.min, 1 <<< hours.min,
         1 <<< dom.min, all months, all dow, 0, 0, 1001, none⟩
  else if descriptor = ['@','w','e','e','k','l','y'] then
    .ok ⟨1 <<< seconds.min, 1 <<< minutes.min, 1 <<< hours.min,
         all dom, all months, 1 <<< dow.min, 0, 0, 1001, none⟩
  else if descriptor = ['@','d','a','i','l','y'] ∨ descriptor = ['@','m','i','d','n','i','g','h','t'] then
    .ok ⟨1 <<< seconds.min, 1 <<< minutes.min, 1 <<< hours.min,
         all dom, all months, all dow, 0, 0, 1001, none⟩
  else if descriptor = ['@','h','o','u','r','l','y'] then
    .ok ⟨1 <<< seconds.min, 1 <<< minutes.min, all hours,
         all dom, all months, all dow, 0, 0, 1001, none⟩
  else if List.isPrefixOf ['@','e','v','e','r','y',' '] descriptor then
    match parseDuration (descriptor.drop 7) with
    | none => .error .invalidDuration
    | some duration =>
      if duration < hourNs then
        .ok ⟨0, 0, 0, 0, 0, 0, 0,
             int64Pat (f64ceilInt (f64Minutes duration)), 0, none⟩
      else if duration < hourNs * 24 then
        .ok ⟨0, 0, 0, 0, 0, 0,
             int64Pat (f64ceilInt (f64Hours duration)), 0, 0, none⟩
      else
        .ok ⟨0, 0, 0, 0, 0, 0, 0, 0,
             int64Pat (f64ceilInt (f64div (f64Hours duration) (f64ofInt 24))), none⟩
  else .error .unrecognizedDescriptor

/-- The `ParseOption` flags (bit positions as in the source's iota). -/
def Second : Nat := 1

/-- `Minute` flag. -/
def Minute : Nat := 2

/-- `Hour` flag. -/
def Hour : Nat := 4

/-- `Dom` flag. -/
def Dom : Nat := 8

/-- `Month` flag. -/
def Month : Nat := 16

/-- `Dow` flag. -/
def Dow : Nat := 32

/-- `DowOptional` flag. -/
def DowOptional : Nat := 64

/-- `Descriptor` flag. -/
def Descriptor : Nat := 128

/-- `places` from the source: field slots in their fixed order. -/
def places : List Nat := [Second, Minute, Hour, Dom, Month, Dow]

/-- `defaults` from the source: the positional default for each slot. -/
def defaults : List (List Char) := [['0'], ['0'], ['0'], ['*'], ['*'], ['*']]

/-- `Parser` from the source. -/
structure Parser where
  options : Nat
  optionals : Nat
deriving DecidableEq, Repr

/-- `NewParser` from the source: `DowOptional` implies `Dow` and records
one optional field. -/
def NewParser (options : Nat) : Parser :=
  if options &&& DowOptional ≠ 0 then ⟨options ||| Dow, 1⟩ else ⟨options, 0⟩

/-- The walk of `expandFields`: for each place in order, an enabled slot
consumes the next provided field and a disabled slot keeps its default.
When the provided fields run out, every remaining slot keeps its default —
exactly the effect of the source's `if n == count { break }` (the source
would index out of bounds on an enabled first slot with zero fields, but
`Parse` validates the field count against the enabled count first, making
that unreachable). -/
def expandWalk (options : Nat) : List (Nat × List Char) → List (List Char) → List (List Char)
  | [], _ => []
  | (place, dflt) :: rest, fields =>
    if options &&& place ≠ 0 then
      match fields with
      | [] => dflt :: expandWalk options rest []
      | f :: fs => f :: expandWalk options rest fs
    else
      dflt :: expandWalk options rest fields

/-- `expandFields` from the source: expand the provided fields into the
canonical 6-slot layout. -/
def expandFields (fields : List (List Char)) (options : Nat) : List (List Char) :=
  expandWalk options (places.zip defaults) fields

/-- `Parser.Parse` from the source: empty-spec check, descriptor
delegation, field-count validation, expansion, and the six `getField`
resolutions in fixed order with the first error winning. -/
def Parser.parse (p : Parser) (spec : List Char) : Except ParseErr Schedule :=
  if spec = [] then .error .emptySpec
  else if spec.headD ' ' = '@' ∧ p.options &&& Descriptor ≠ 0 then
    parseDescriptor spec
  else
    let upperLimit := places.countP (fun place => p.options &&& place != 0)
    let lowerLimit := upperLimit - p.optionals
    let fields := fieldsSplit spec
    let count := fields.length
    if count < lowerLimit ∨ upperLimit < count then
      .error (.fieldCount lowerLimit upperLimit count)
    else
      let expFields := expandFields fields p.options
      match getField (expFields.getD 0 []) seconds with
      | .error e => .error e
      | .ok secondBits =>
        match getField (expFields.getD 1 []) minutes with
        | .error e => .error e
        | .ok minuteBits =>
          match getField (expFields.getD 2 []) hours with
          | .error e => .error e
          | .ok hourBits =>
            match getField (expFields.getD 3 []) dom with
            | .error e => .error e
            | .ok domBits =>
              match getField (expFields.getD 4 []) months with
              | .error e => .error e
              | .ok monthBits =>
                match getField (expFields.getD 5 []) dow with
                | .error e => .error e
                | .ok dowBits =>
                  .ok ⟨secondBits, minuteBits, hourBits, domBits,
                       monthBits, dowBits, 0, 0, 0, none⟩

/-- `standardParser` from the source. -/
def standardParser : Parser :=
  NewParser (Minute ||| Hour ||| Dom ||| Month ||| Dow ||| Descriptor)

/-- `ParseStandard` from the source. -/
def ParseStandard (standardSpec : List Char) : Except ParseErr Schedule :=
  standardParser.parse standardSpec

/-- `defaultParser` from the source. -/
def defaultParser : Parser :=
  NewParser (Second ||| Minute ||| Hour ||| Dom ||| Month ||| DowOptional ||| Descriptor)

/-- `Parse` (the top-level convenience function) from the source. -/
def Parse (spec : List Char) : Except ParseErr Schedule :=
  defaultParser.parse spec

/-- Decidable equality for `Except` results, so concrete parses can be
checked by evaluation. -/
instance exceptDecEq {ε α : Type} [DecidableEq ε] [DecidableEq α] :
    DecidableEq (Except ε α)
  | .error e₁, .error e₂ => decidable_of_iff (e₁ = e₂) (by simp)
  | .error _, .ok _ => isFalse (by simp)
  | .ok _, .error _ => isFalse (by simp)
  | .ok a₁, .ok a₂ => decidable_of_iff (a₁ = a₂) (by simp)

/-! ### Helper lemmas about the string splitters -/

theorem splitOnChar_ne_nil (sep : Char) (l : List Char) : splitOnChar sep l ≠ [] := by
  cases l with
  | nil => simp [splitOnChar]
  | cons c cs =>
    simp only [splitOnChar]
    split <;> simp

theorem splitOnChar_of_not_mem {sep : Char} {l : List Char} (h : sep ∉ l) :
    splitOnChar sep l = [l] := by
  induction l with
  | nil => rfl
  | cons c cs ih =>
    simp only [List.mem_cons, not_or] at h
    simp [splitOnChar, ih h.2, Ne.symm h.1]

theorem splitOnChar_append_cons (sep : Char) (a l : List Char) (h : sep ∉ a) :
    splitOnChar sep (a ++ sep :: l) = a :: splitOnChar sep l := by
  induction a with
  | nil => simp [splitOnChar]
  | cons c a' ih =>
    simp only [List.mem_cons, not_or] at h
    simp [splitOnChar, ih h.2, Ne.symm h.1]

/-! ### Helper lemmas about numeric parsing -/

theorem isDigit_of_digitsAccum {l : List Char} {acc n : Nat}
    (h : digitsAccum acc l = some n) : ∀ c ∈ l, c.isDigit := by
  induction l generalizing acc with
  | nil => simp
  | cons c cs ih =>
    simp only [digitsAccum] at h
    split at h
    · rename_i hdig
      intro d hd
      rcases List.mem_cons.1 hd with rfl | hmem
      · exact hdig
      · exact ih h d hmem
    · exact absurd h (by simp)

theorem isDigit_of_parseDigits {l : List Char} {n : Nat}
    (h : parseDigits l = some n) : ∀ c ∈ l, c.isDigit := by
  cases l with
  | nil => simp
  | cons c cs => exact isDigit_of_digitsAccum h

theorem not_slash_of_atoi {l : List Char} {z : Int} (h : atoi l = some z) : '/' ∉ l := by
  cases l with
  | nil => simp
  | cons c cs =>
    simp only [atoi] at h
    intro hmem
    rcases List.mem_cons.1 hmem with rfl | hmem
    · rw [if_neg (by decide), if_neg (by decide)] at h
      rcases hd : parseDigits ('/' :: cs) with _ | n <;> rw [hd] at h
      · exact absurd h (by simp)
      · have := isDigit_of_parseDigits hd '/' (by simp)
        exact absurd this (by decide)
    · split at h
      · rcases hd : parseDigits cs with _ | n <;> rw [hd] at h
        · exact absurd h (by simp)
        · exact absurd (isDigit_of_parseDigits hd '/' hmem) (by decide)
      · split at h
        · rcases hd : parseDigits cs with _ | n <;> rw [hd] at h
          · exact absurd h (by simp)
          · exact absurd (isDigit_of_parseDigits hd '/' hmem) (by decide)
        · rcases hd : parseDigits (c :: cs) with _ | n <;> rw [hd] at h
          · exact absurd h (by simp)
          · exact absurd (isDigit_of_parseDigits hd '/' (by simp [hmem])) (by decide)

theorem not_slash_of_mustParseInt {l : List Char} {v : Nat}
    (h : mustParseInt l = .ok v) : '/' ∉ l := by
  simp only [mustParseInt] at h
  rcases ha : atoi l with _ | z <;> rw [ha] at h
  · exact absurd h (by simp)
  · exact not_slash_of_atoi ha

theorem not_slash_of_mustParseInt_neg {l : List Char}
    (h : mustParseInt l = .error .negativeNumber) : '/' ∉ l := by
  simp only [mustParseInt] at h
  rcases ha : atoi l with _ | z <;> rw [ha] at h
  · exact absurd h (by simp)
  · exact not_slash_of_atoi ha

/-! ### Bit-level characterization of `getBits` -/

theorem loopBitsGo_testBit {upperLimit step : Nat} (hs : step ≠ 0) (hu : upperLimit ≤ 63) :
    ∀ fuel lowerLimit, upperLimit + 1 - lowerLimit ≤ fuel → ∀ i,
      (loopBitsGo fuel lowerLimit upperLimit step).testBit i =
        decide (lowerLimit ≤ i ∧ i ≤ upperLimit ∧ (i - lowerLimit) % step = 0) := by
  intro fuel
  induction fuel with
  | zero =>
    intro lo hn i
    simp only [loopBitsGo, Nat.zero_testBit]
    have : ¬(lo ≤ i ∧ i ≤ upperLimit ∧ (i - lo) % step = 0) := by omega
    simp [this]
  | succ n ih =>
    intro lo hn i
    simp only [loopBitsGo]
    by_cases hlt : upperLimit < lo
    · rw [if_pos hlt]
      simp only [Nat.zero_testBit]
      have : ¬(lo ≤ i ∧ i ≤ upperLimit ∧ (i - lo) % step = 0) := by omega
      simp [this]
    · rw [if_neg hlt]
      have hlo63 : lo < 64 := by omega
      have hmod : (1 <<< lo) % W = 2 ^ lo := by
        rw [Nat.one_shiftLeft, W]
        exact Nat.mod_eq_of_lt (Nat.pow_lt_pow_right (by norm_num) hlo63)
      rw [Nat.testBit_or, hmod, Nat.testBit_two_pow, ih (lo + step) (by omega) i]
      rcases Nat.lt_or_ge i lo with hi | hi
      · have h1 : ¬(lo = i) := by omega
        have h2 : ¬(lo + step ≤ i ∧ i ≤ upperLimit ∧ (i - (lo + step)) % step = 0) := by omega
        have h3 : ¬(lo ≤ i ∧ i ≤ upperLimit ∧ (i - lo) % step = 0) := by omega
        simp [h1, h2, h3]
      · by_cases heq : i = lo
        · subst heq
          have h3 : i ≤ upperLimit ∧ (i - i) % step = 0 := by
            refine ⟨by omega, by simp⟩
          simp [h3]
        · have h1 : ¬(lo = i) := fun hc => heq hc.symm
          simp only [decide_eq_false h1, Bool.false_or]
          rw [decide_eq_decide]
          constructor
          · rintro ⟨ha, hb, hc⟩
            refine ⟨by omega, hb, ?_⟩
            have hd : step ∣ (i - (lo + step)) := Nat.dvd_of_mod_eq_zero hc
            have he : i - lo = (i - (lo + step)) + step := by omega
            rw [he, Nat.add_mod_right]
            exact Nat.mod_eq_zero_of_dvd hd
          · rintro ⟨ha, hb, hc⟩
            have hd : step ∣ (i - lo) := Nat.dvd_of_mod_eq_zero hc
            have hpos : 0 < i - lo := by omega
            have hge : step ≤ i - lo := Nat.le_of_dvd hpos hd
            refine ⟨by omega, hb, ?_⟩
            have he : step ∣ (i - lo - step) := Nat.dvd_sub' hd dvd_rfl
            have hf : i - (lo + step) = i - lo - step := by omega
            rw [hf]
            exact Nat.mod_eq_zero_of_dvd he

theorem loopBits_testBit {upperLimit step : Nat} (hs : step ≠ 0) (hu : upperLimit ≤ 63) :
    ∀ lowerLimit i, (loopBits lowerLimit upperLimit step).testBit i =
      decide (lowerLimit ≤ i ∧ i ≤ upperLimit ∧ (i - lowerLimit) % step = 0) :=
  fun lo i => loopBitsGo_testBit hs hu (upperLimit + 1 - lo) lo (Nat.le_refl _) i

theorem testBit_ones_shift (k i : Nat) :
    (((2:Nat) ^ 64 - 1) <<< k % 2 ^ 64).testBit i = decide (i < 64 ∧ k ≤ i) := by
  rw [Nat.testBit_mod_two_pow, Nat.testBit_shiftLeft, Nat.testBit_two_pow_sub_one]
  by_cases h1 : i < 64 <;> by_cases h2 : k ≤ i <;> simp [h1, h2] <;> omega

theorem getBits_testBit {lowerLimit upperLimit step : Nat} (hs : step ≠ 0)
    (hl : lowerLimit ≤ 63) (hu : upperLimit ≤ 63) (i : Nat) :
    (getBits lowerLimit upperLimit step).testBit i =
      decide (lowerLimit ≤ i ∧ i ≤ upperLimit ∧ (i - lowerLimit) % step = 0) := by
  by_cases h1 : step = 1
  · subst h1
    unfold getBits ones64 W
    rw [if_pos rfl, Nat.testBit_and, Nat.testBit_xor, testBit_ones_shift,
      testBit_ones_shift, Nat.testBit_two_pow_sub_one]
    simp only [Nat.mod_one, and_true]
    by_cases h64 : i < 64
    · by_cases hbl : lowerLimit ≤ i <;> by_cases hbu : i ≤ upperLimit <;>
        simp [h64, hbl, hbu] <;> omega
    · have hno : ¬(lowerLimit ≤ i ∧ i ≤ upperLimit) := by omega
      simp [h64, hno]
  · rw [getBits, if_neg h1]
    exact loopBits_testBit hs hu lowerLimit i

/-! ### The verified claims -/

theorem parseDescriptor_kinds {d : List Char} {sch : Schedule}
    (h : parseDescriptor d = .ok sch) :
    (sch.RepeatMin = 0 ∧ sch.RepeatHour = 0 ∧ sch.RepeatDate = 1001 ∧
     sch.Second ≠ 0 ∧ sch.Minute ≠ 0 ∧ sch.Hour ≠ 0 ∧ sch.Dom ≠ 0 ∧
     sch.Month ≠ 0 ∧ sch.Dow ≠ 0) ∨
    (sch.Second = 0 ∧ sch.Minute = 0 ∧ sch.Hour = 0 ∧ sch.Dom = 0 ∧
     sch.Month = 0 ∧ sch.Dow = 0 ∧
     ((sch.RepeatHour = 0 ∧ sch.RepeatDate = 0) ∨
      (sch.RepeatMin = 0 ∧ sch.RepeatDate = 0) ∨
      (sch.RepeatMin = 0 ∧ sch.RepeatHour = 0))) := by
  unfold parseDescriptor at h
  split at h
  · cases h; exact Or.inl (by decide)
  · split at h
    · cases h; exact Or.inl (by decide)
    · split at h
      · cases h; exact Or.inl (by decide)
      · split at h
        · cases h; exact Or.inl (by decide)
        · split at h
          · cases h; exact Or.inl (by decide)
          · split at h
            · split at h
              · exact absurd h (by simp)
              · split at h
                · cases h
                  exact Or.inr ⟨rfl, rfl, rfl, rfl, rfl, rfl, Or.inl ⟨rfl, rfl⟩⟩
                · split at h
                  · cases h
                    exact Or.inr ⟨rfl, rfl, rfl, rfl, rfl, rfl, Or.inr (Or.inl ⟨rfl, rfl⟩)⟩
                  · cases h
                    exact Or.inr ⟨rfl, rfl, rfl, rfl, rfl, rfl, Or.inr (Or.inr ⟨rfl, rfl⟩)⟩
            · exact absurd h (by simp)

/-- C1 (amended).  Every `Schedule` returned by `Parser.parse` is one of three
shapes: a field schedule (all three repeat fields zero), a symbolic-descriptor
schedule (repeat-min and repeat-hour zero, repeat-date equal to the fixed
marker 1001, and all six bitmasks nonzero), or an interval schedule (all six
bitmasks zero and at least two of the three repeat fields zero).  The original
claim — that populated bitmasks and a nonzero repeat field never coexist —
fails for the symbolic descriptors, which pair populated bitmasks with the
repeat-date marker. -/
theorem parse_schedule_kinds (p : Parser) (spec : List Char) (sch : Schedule)
    (h : p.parse spec = .ok sch) :
    (sch.RepeatMin = 0 ∧ sch.RepeatHour = 0 ∧ sch.RepeatDate = 0) ∨
    (sch.RepeatMin = 0 ∧ sch.RepeatHour = 0 ∧ sch.RepeatDate = 1001 ∧
     sch.Second ≠ 0 ∧ sch.Minute ≠ 0 ∧ sch.Hour ≠ 0 ∧ sch.Dom ≠ 0 ∧
     sch.Month ≠ 0 ∧ sch.Dow ≠ 0) ∨
    (sch.Second = 0 ∧ sch.Minute = 0 ∧ sch.Hour = 0 ∧ sch.Dom = 0 ∧
     sch.Month = 0 ∧ sch.Dow = 0 ∧
     ((sch.RepeatHour = 0 ∧ sch.RepeatDate = 0) ∨
      (sch.RepeatMin = 0 ∧ sch.RepeatDate = 0) ∨
      (sch.RepeatMin = 0 ∧ sch.RepeatHour = 0))) := by
  unfold Parser.parse at h
  split at h
  · exact absurd h (by simp)
  · split at h
    · rcases parseDescriptor_kinds h with hsym | hint
      · exact Or.inr (Or.inl hsym)
      · exact Or.inr (Or.inr hint)
    · dsimp only at h
      split at h
      · exact absurd h (by simp)
      · split at h
        · exact absurd h (by simp)
        · split at h
          · exact absurd h (by simp)
          · split at h
            · exact absurd h (by simp)
            · split at h
              · exact absurd h (by simp)
              · split at h
                · exact absurd h (by simp)
                · split at h
                  · exact absurd h (by simp)
                  · cases h; exact Or.inl ⟨rfl, rfl, rfl⟩

theorem parse_schedule_kinds_witness :
    ((0 : Nat) = 0 ∧ (0 : Nat) = 0 ∧ (0 : Nat) = 0) ∨
    ((0 : Nat) = 0 ∧ (0 : Nat) = 0 ∧ (0 : Nat) = 1001 ∧
     (1 : Nat) ≠ 0 ∧ (1 : Nat) ≠ 0 ∧ (1 : Nat) ≠ 0 ∧ (2 ^ 15 : Nat) ≠ 0 ∧
     (2 ^ 63 + 8190 : Nat) ≠ 0 ∧ (2 ^ 63 + 127 : Nat) ≠ 0) ∨
    ((1 : Nat) = 0 ∧ (1 : Nat) = 0 ∧ (1 : Nat) = 0 ∧ (2 ^ 15 : Nat) = 0 ∧
     (2 ^ 63 + 8190 : Nat) = 0 ∧ (2 ^ 63 + 127 : Nat) = 0 ∧
     (((0 : Nat) = 0 ∧ (0 : Nat) = 0) ∨ ((0 : Nat) = 0 ∧ (0 : Nat) = 0) ∨
      ((0 : Nat) = 0 ∧ (0 : Nat) = 0))) :=
  parse_schedule_kinds standardParser "0 0 15 * *".toList
    ⟨1, 1, 1, 2 ^ 15, 2 ^ 63 + 8190, 2 ^ 63 + 127, 0, 0, 0, none⟩ (by decide)

/-- C1 counterexample.  `@weekly` parses to a schedule whose `Dom` bitmask and
`RepeatDate` repeat field are both nonzero, so the parser does return
a schedule with a populated bitmask field alongside a nonzero repeat field. -/
theorem parse_weekly_mixed_fields :
    standardParser.parse "@weekly".toList =
      .ok ⟨1, 1, 1, 2 ^ 63 + (2 ^ 32 - 2), 2 ^ 63 + 8190, 1, 0, 0, 1001, none⟩ ∧
    (standardParser.parse "@weekly".toList).map
      (fun s => decide (s.Dom ≠ 0 ∧ s.RepeatDate ≠ 0)) = .ok true := by decide

/-- C2.  In `getRange`, a step whose left-hand side is a single value `n`
yields bits `n, n + s, ...` up to `bounds.max` (the end is overridden to the
maximum), while an explicit range `n-m/s` applies the step only within
`[n, m]`; concretely, over bounds `[0, 10]`, `"5/2"` sets exactly bits
`{5, 7, 9}` and `"1-5/2"` sets exactly bits `{1, 3, 5}`. -/
theorem getRange_step_semantics :
    (∀ (b : Bounds) (nStr sStr : List Char) (n s : Nat),
        parseIntOrName nStr b.names = .ok n → mustParseInt sStr = .ok s →
        nStr ≠ ['*'] → nStr ≠ ['?'] → '/' ∉ nStr → '-' ∉ nStr →
        b.min ≤ n → n ≤ b.max → b.max ≤ 63 → s ≠ 0 →
        getRange (nStr ++ '/' :: sStr) b = .ok (getBits n b.max s) ∧
        ∀ i, (getBits n b.max s).testBit i =
          decide (n ≤ i ∧ i ≤ b.max ∧ (i - n) % s = 0)) ∧
    (∀ (b : Bounds) (loStr hiStr sStr : List Char) (n m s : Nat),
        parseIntOrName loStr b.names = .ok n → parseIntOrName hiStr b.names = .ok m →
        mustParseInt sStr = .ok s →
        loStr ≠ ['*'] → loStr ≠ ['?'] → '/' ∉ loStr → '-' ∉ loStr →
        '/' ∉ hiStr → '-' ∉ hiStr →
        b.min ≤ n → n ≤ m → m ≤ b.max → b.max ≤ 63 → s ≠ 0 →
        getRange (loStr ++ '-' :: (hiStr ++ '/' :: sStr)) b = .ok (getBits n m s) ∧
        ∀ i, (getBits n m s).testBit i =
          decide (n ≤ i ∧ i ≤ m ∧ (i - n) % s = 0)) ∧
    getRange "5/2".toList ⟨0, 10, []⟩ = .ok (2 ^ 5 + 2 ^ 7 + 2 ^ 9) ∧
    getRange "1-5/2".toList ⟨0, 10, []⟩ = .ok (2 ^ 1 + 2 ^ 3 + 2 ^ 5) := by
  refine ⟨?_, ?_, by decide, by decide⟩
  · intro b nStr sStr n s hn hstep hstar hq hslash hhyph hmin hmax hmax63 hs0
    have hsl : '/' ∉ sStr := not_slash_of_mustParseInt hstep
    have e1 : splitOnChar '/' (nStr ++ '/' :: sStr) = [nStr, sStr] := by
      rw [splitOnChar_append_cons _ _ _ hslash, splitOnChar_of_not_mem hsl]
    have e2 : splitOnChar '-' nStr = [nStr] := splitOnChar_of_not_mem hhyph
    constructor
    · simp only [getRange, e1, List.headD_cons, e2, List.length_cons, List.length_nil]
      rw [if_neg (by simp [hstar, hq])]
      rw [hn]
      dsimp only
      rw [hstep]
      dsimp only
      simp only [if_true]
      rw [if_neg (by omega : ¬n < b.min), if_neg (by omega : ¬b.max < b.max),
        if_neg (by omega : ¬b.max < n), if_neg hs0, Nat.or_zero]
    · intro i
      exact getBits_testBit hs0 (by omega) hmax63 i
  · intro b loStr hiStr sStr n m s hn hm hstep hstar hq hslash hhyph hslash2 hhyph2
      hmin hnm hmax hmax63 hs0
    have hsl : '/' ∉ sStr := not_slash_of_mustParseInt hstep
    have e1 : splitOnChar '/' (loStr ++ '-' :: (hiStr ++ '/' :: sStr)) =
        [loStr ++ '-' :: hiStr, sStr] := by
      have hnotmem : '/' ∉ loStr ++ '-' :: hiStr := by
        simp [List.mem_append, hslash, hslash2]
      have := splitOnChar_append_cons '/' (loStr ++ '-' :: hiStr) sStr hnotmem
      rw [splitOnChar_of_not_mem hsl] at this
      simpa using this
    have e2 : splitOnChar '-' (loStr ++ '-' :: hiStr) = [loStr, hiStr] := by
      rw [splitOnChar_append_cons _ _ _ hhyph, splitOnChar_of_not_mem hhyph2]
    constructor
    · simp only [getRange, e1, List.headD_cons, e2, List.length_cons, List.length_nil]
      rw [if_neg (by simp [hstar, hq])]
      rw [hn]
      dsimp only
      rw [hm]
      dsimp only
      rw [hstep]
      dsimp only
      rw [if_neg (by omega : ¬(1 + 1 = 1))]
      rw [if_neg (by omega : ¬n < b.min), if_neg (by omega : ¬b.max < m),
        if_neg (by omega : ¬m < n), if_neg hs0, Nat.or_zero]
    · intro i
      exact getBits_testBit hs0 (by omega) (by omega) i

theorem getRange_step_semantics_witness :
    getRange (['7'] ++ '/' :: ['3']) ⟨0, 10, []⟩ = .ok (getBits 7 10 3) ∧
    ∀ i, (getBits 7 10 3).testBit i = decide (7 ≤ i ∧ i ≤ 10 ∧ (i - 7) % 3 = 0) :=
  getRange_step_semantics.1 ⟨0, 10, []⟩ ['7'] ['3'] 7 3 (by decide) (by decide)
    (by decide) (by decide) (by decide) (by decide) (by decide) (by decide)
    (by decide) (by decide)

set_option maxHeartbeats 4000000 in
set_option maxRecDepth 8000 in
/-- C3 counterexample.  The claim reads the repeat values as exact
ceilings, but the program computes them in `float64`: `"@every 4104h1ns"`
parses to 14774400000000001 nanoseconds, whose `Hours()` rounds to exactly
4104.0 (the one-nanosecond remainder falls below half an ulp), so the
program returns repeat-date 171 while the exact ceiling of hours over 24
is 172. -/
theorem parseDescriptor_every_not_exact_ceiling :
    parseDuration "4104h1ns".toList = some 14774400000000001 ∧
    parseDescriptor "@every 4104h1ns".toList =
      .ok ⟨0, 0, 0, 0, 0, 0, 0, 0, 171, none⟩ ∧
    int64Pat (ceilDivInt 14774400000000001 (hourNs * 24)) = 172 := by
  refine ⟨by decide, by decide, by decide⟩

set_option maxHeartbeats 1000000 in
/-- C3 (amended).  `parseDescriptor` on `"@every <d>"` populates exactly
one repeat field chosen by the magnitude of the parsed duration — minutes
below one hour, hours below 24 hours, days otherwise — with all six
bitmask fields left at zero, where each value is the `float64` ceiling the
program computes (`math.Ceil` over `float64` `Minutes`/`Hours` arithmetic)
rather than the exact ceiling; in particular `"@every 90m"` yields
repeat-hours 2 with no error. -/
theorem parseDescriptor_every_float_classification :
    (∀ (durStr : List Char) (d : Int), parseDuration durStr = some d →
        parseDescriptor ('@' :: 'e' :: 'v' :: 'e' :: 'r' :: 'y' :: ' ' :: durStr) =
          (if d < hourNs then
             .ok ⟨0, 0, 0, 0, 0, 0, 0,
                  int64Pat (f64ceilInt (f64Minutes d)), 0, none⟩
           else if d < hourNs * 24 then
             .ok ⟨0, 0, 0, 0, 0, 0,
                  int64Pat (f64ceilInt (f64Hours d)), 0, 0, none⟩
           else
             .ok ⟨0, 0, 0, 0, 0, 0, 0, 0,
                  int64Pat (f64ceilInt (f64div (f64Hours d) (f64ofInt 24))), none⟩)) ∧
    parseDescriptor "@every 90m".toList = .ok ⟨0, 0, 0, 0, 0, 0, 2, 0, 0, none⟩ := by
  refine ⟨?_, by decide⟩
  intro durStr d h
  rw [parseDescriptor]
  rw [if_neg (by simp), if_neg (by simp), if_neg (by simp), if_neg (by simp),
    if_neg (by simp), if_pos (by simp [List.isPrefixOf])]
  rw [show List.drop 7 ('@' :: 'e' :: 'v' :: 'e' :: 'r' :: 'y' :: ' ' :: durStr) = durStr
    from rfl, h]

set_option maxHeartbeats 1000000 in
theorem parseDescriptor_every_float_classification_witness :
    parseDescriptor ('@' :: 'e' :: 'v' :: 'e' :: 'r' :: 'y' :: ' ' :: ['9', '0', 'm']) =
      (if (5400000000000 : Int) < hourNs then
         .ok ⟨0, 0, 0, 0, 0, 0, 0,
              int64Pat (f64ceilInt (f64Minutes 5400000000000)), 0, none⟩
       else if (5400000000000 : Int) < hourNs * 24 then
         .ok ⟨0, 0, 0, 0, 0, 0,
              int64Pat (f64ceilInt (f64Hours 5400000000000)), 0, 0, none⟩
       else
         .ok ⟨0, 0, 0, 0, 0, 0, 0, 0,
              int64Pat (f64ceilInt (f64div (f64Hours 5400000000000) (f64ofInt 24))), none⟩) :=
  parseDescriptor_every_float_classification.1 ['9', '0', 'm'] 5400000000000 (by decide)

/-- C8.  For all `0 ≤ lo ≤ hi ≤ 63`, the closed-form step-1 branch of
`getBits`, built from two shifted all-ones masks, returns exactly the mask
with bits `lo` through `hi` set, and coincides with the naive loop that sets
each bit one at a time — including the boundary `hi = 63`, where the shift
count reaches the full 64-bit width. -/
theorem getBits_step_one_closed_form (lo hi : Nat) (h1 : lo ≤ hi) (h2 : hi ≤ 63) :
    getBits lo hi 1 = loopBits lo hi 1 ∧
    ∀ i, (getBits lo hi 1).testBit i = decide (lo ≤ i ∧ i ≤ hi) := by
  constructor
  · apply Nat.eq_of_testBit_eq
    intro i
    rw [getBits_testBit one_ne_zero (by omega) h2 i, loopBits_testBit one_ne_zero h2 lo i]
  · intro i
    rw [getBits_testBit one_ne_zero (by omega) h2 i]
    simp [Nat.mod_one]

theorem getBits_step_one_closed_form_witness :
    (5 ≤ 63 ∧ 63 ≤ 63) ∧
    (getBits 5 63 1 = loopBits 5 63 1 ∧
     ∀ i, (getBits 5 63 1).testBit i = decide (5 ≤ i ∧ i ≤ 63)) :=
  ⟨⟨by decide, by decide⟩, getBits_step_one_closed_form 5 63 (by decide) (by decide)⟩

/-- C4.  Each fixed descriptor maps to the fixed field schedule of the
table: second/minute/hour pinned to the field-minimum bit (except `@hourly`,
whose hour is the full-range mask plus star bit), dom/month/dow per
granularity either the minimum bit or the full-range mask plus the star bit,
together with the nonzero repeat-date marker 1001. -/
theorem parseDescriptor_fixed_table :
    parseDescriptor "@yearly".toList =
      .ok ⟨1, 1, 1, 2, 2, 2 ^ 63 + 127, 0, 0, 1001, none⟩ ∧
    parseDescriptor "@annually".toList =
      .ok ⟨1, 1, 1, 2, 2, 2 ^ 63 + 127, 0, 0, 1001, none⟩ ∧
    parseDescriptor "@monthly".toList =
      .ok ⟨1, 1, 1, 2, 2 ^ 63 + 8190, 2 ^ 63 + 127, 0, 0, 1001, none⟩ ∧
    parseDescriptor "@weekly".toList =
      .ok ⟨1, 1, 1, 2 ^ 63 + (2 ^ 32 - 2), 2 ^ 63 + 8190, 1, 0, 0, 1001, none⟩ ∧
    parseDescriptor "@daily".toList =
      .ok ⟨1, 1, 1, 2 ^ 63 + (2 ^ 32 - 2), 2 ^ 63 + 8190, 2 ^ 63 + 127, 0, 0, 1001, none⟩ ∧
    parseDescriptor "@midnight".toList =
      .ok ⟨1, 1, 1, 2 ^ 63 + (2 ^ 32 - 2), 2 ^ 63 + 8190, 2 ^ 63 + 127, 0, 0, 1001, none⟩ ∧
    parseDescriptor "@hourly".toList =
      .ok ⟨1, 1, 2 ^ 63 + (2 ^ 24 - 1), 2 ^ 63 + (2 ^ 32 - 2), 2 ^ 63 + 8190,
           2 ^ 63 + 127, 0, 0, 1001, none⟩ := by
  decide

/-- C10.  `getField` splits on commas and silently drops empty pieces: for
every bounds, a field text that is empty or consists only of commas returns
bitmask 0 with no error, and `"1,,2"` parses to the same bitmask as
`"1,2"`. -/
theorem getField_empty_pieces (b : Bounds) :
    getField [] b = .ok 0 ∧
    getField ",,,".toList b = .ok 0 ∧
    getField "1,,2".toList b = getField "1,2".toList b :=
  ⟨rfl, rfl, rfl⟩

/-- C7.  Field expansion walks second, minute, hour, dom, month, dow in
fixed order, consuming provided fields left-to-right into enabled slots and
backfilling the rest with positional defaults (`"0"` for time slots, `"*"`
for date slots): the standard 5-field parser prepends the `"0"` second
default, the extended parser given five fields backfills `"*"` for the
optional day-of-week, and `"0 0 15 * *"` parses to second/minute/hour bit 0,
dom bit 15, and full-range-plus-star month and dow. -/
theorem expandFields_walk :
    (∀ a b c d e : List Char,
        expandFields [a, b, c, d, e] standardParser.options = [['0'], a, b, c, d, e]) ∧
    (∀ a b c d e : List Char,
        expandFields [a, b, c, d, e] defaultParser.options = [a, b, c, d, e, ['*']]) ∧
    standardParser.parse "0 0 15 * *".toList =
      .ok ⟨1, 1, 1, 2 ^ 15, 2 ^ 63 + 8190, 2 ^ 63 + 127, 0, 0, 0, none⟩ :=
  ⟨fun _ _ _ _ _ => rfl, fun _ _ _ _ _ => rfl, by decide⟩

/-- C5.  For every field bounds (any bounds with `min ≤ max ≤ 63`, which
covers all six registry bounds), `getRange` on a bare `*` or `?` returns the
`all` bitmask, whose bits are exactly `min` through `max` plus the star
bit 63 and nothing else. -/
theorem getRange_wildcard (b : Bounds) (hminmax : b.min ≤ b.max) (hmax63 : b.max ≤ 63) :
    getRange ['*'] b = .ok (all b) ∧ getRange ['?'] b = .ok (all b) ∧
    ∀ i, (all b).testBit i = decide ((b.min ≤ i ∧ i ≤ b.max) ∨ i = 63) := by
  refine ⟨?_, ?_, ?_⟩
  · simp only [getRange, splitOnChar, if_neg (by decide : ¬('*' = '/')),
      if_neg (by decide : ¬('*' = '-')), List.headD_cons, List.tail_cons]
    rw [if_pos (Or.inl trivial)]
    dsimp only
    rw [if_neg (by omega : ¬b.min < b.min), if_neg (by omega : ¬b.max < b.max),
      if_neg (by omega : ¬b.max < b.min), if_neg (by omega : ¬(1 = 0))]
    rfl
  · simp only [getRange, splitOnChar, if_neg (by decide : ¬('?' = '/')),
      if_neg (by decide : ¬('?' = '-')), List.headD_cons, List.tail_cons]
    rw [if_pos (Or.inr trivial)]
    dsimp only
    rw [if_neg (by omega : ¬b.min < b.min), if_neg (by omega : ¬b.max < b.max),
      if_neg (by omega : ¬b.max < b.min), if_neg (by omega : ¬(1 = 0))]
    rfl
  · intro i
    rw [all, Nat.testBit_or, getBits_testBit one_ne_zero (by omega) hmax63 i]
    rw [show starBit = 2 ^ 63 from rfl, Nat.testBit_two_pow]
    by_cases h1 : b.min ≤ i <;> by_cases h2 : i ≤ b.max <;> by_cases h3 : (63 : Nat) = i <;>
      simp [h1, h2, h3, Nat.mod_one] <;> omega

theorem getRange_wildcard_witness :
    (minutes.min ≤ minutes.max ∧ minutes.max ≤ 63) ∧
    (getRange ['*'] minutes = .ok (all minutes) ∧ getRange ['?'] minutes = .ok (all minutes) ∧
     ∀ i, (all minutes).testBit i = decide ((minutes.min ≤ i ∧ i ≤ minutes.max) ∨ i = 63)) :=
  ⟨⟨by decide, by decide⟩, getRange_wildcard minutes (by decide) (by decide)⟩

/-- C6 counterexample.  `"-1"` in the minutes field does not error with
NegativeNumber: the hyphen is consumed by the range split, so the empty left
side fails integer parsing with IntParseFailure. -/
theorem getRange_minus_one_not_negative_number :
    getRange "-1".toList minutes = .error .intParseFailure ∧
    getRange "-1".toList minutes ≠ .error .negativeNumber := by decide

/-- C6 (amended).  `getRange` validates in fixed order with a distinct error
per step: start below minimum, then end above maximum, then inverted range,
then zero step.  A negative numeric literal can survive to integer parsing
only in the step position, where it is rejected with NegativeNumber before
any range validation (a step of minus 2 after `"60"` does so even though the
end exceeds the maximum); `"60"` in the minutes field errors
RangeAboveMaximum, but `"-1"`
is split at its hyphen and errors IntParseFailure, not NegativeNumber as the
original claim states. -/
theorem getRange_validation_order :
    (∀ (b : Bounds) (loStr hiStr sStr : List Char) (n m s : Nat),
        parseIntOrName loStr b.names = .ok n → parseIntOrName hiStr b.names = .ok m →
        mustParseInt sStr = .ok s →
        loStr ≠ ['*'] → loStr ≠ ['?'] → '/' ∉ loStr → '-' ∉ loStr →
        '/' ∉ hiStr → '-' ∉ hiStr →
        getRange (loStr ++ '-' :: (hiStr ++ '/' :: sStr)) b =
          (if n < b.min then .error .rangeBelowMinimum
           else if b.max < m then .error .rangeAboveMaximum
           else if m < n then .error .rangeInverted
           else if s = 0 then .error .nonPositiveStep
           else .ok (getBits n m s))) ∧
    (∀ (b : Bounds) (loStr sStr : List Char) (n : Nat),
        parseIntOrName loStr b.names = .ok n →
        mustParseInt sStr = .error .negativeNumber →
        loStr ≠ ['*'] → loStr ≠ ['?'] → '/' ∉ loStr → '-' ∉ loStr →
        getRange (loStr ++ '/' :: sStr) b = .error .negativeNumber) ∧
    getRange "60".toList minutes = .error .rangeAboveMaximum ∧
    getRange "60/-2".toList minutes = .error .negativeNumber ∧
    getRange "-1".toList minutes = .error .intParseFailure := by
  refine ⟨?_, ?_, by decide, by decide, by decide⟩
  · intro b loStr hiStr sStr n m s hn hm hstep hstar hq hslash hhyph hslash2 hhyph2
    have hsl : '/' ∉ sStr := not_slash_of_mustParseInt hstep
    have e1 : splitOnChar '/' (loStr ++ '-' :: (hiStr ++ '/' :: sStr)) =
        [loStr ++ '-' :: hiStr, sStr] := by
      have hnotmem : '/' ∉ loStr ++ '-' :: hiStr := by
        simp [List.mem_append, hslash, hslash2]
      have := splitOnChar_append_cons '/' (loStr ++ '-' :: hiStr) sStr hnotmem
      rw [splitOnChar_of_not_mem hsl] at this
      simpa using this
    have e2 : splitOnChar '-' (loStr ++ '-' :: hiStr) = [loStr, hiStr] := by
      rw [splitOnChar_append_cons _ _ _ hhyph, splitOnChar_of_not_mem hhyph2]
    simp only [getRange, e1, List.headD_cons, e2, List.length_cons, List.length_nil]
    rw [if_neg (by simp [hstar, hq])]
    rw [hn]
    dsimp only
    rw [hm]
    dsimp only
    rw [hstep]
    dsimp only
    rw [if_neg (by omega : ¬(1 + 1 = 1))]
    by_cases h1 : n < b.min
    · rw [if_pos h1, if_pos h1]
    · rw [if_neg h1, if_neg h1]
      by_cases h2 : b.max < m
      · rw [if_pos h2, if_pos h2]
      · rw [if_neg h2, if_neg h2]
        by_cases h3 : m < n
        · rw [if_pos h3, if_pos h3]
        · rw [if_neg h3, if_neg h3]
          by_cases h4 : s = 0
          · rw [if_pos h4, if_pos h4]
          · rw [if_neg h4, if_neg h4, Nat.or_zero]
  · intro b loStr sStr n hn hstep hstar hq hslash hhyph
    have hsl : '/' ∉ sStr := not_slash_of_mustParseInt_neg hstep
    have e1 : splitOnChar '/' (loStr ++ '/' :: sStr) = [loStr, sStr] := by
      rw [splitOnChar_append_cons _ _ _ hslash, splitOnChar_of_not_mem hsl]
    have e2 : splitOnChar '-' loStr = [loStr] := splitOnChar_of_not_mem hhyph
    simp only [getRange, e1, List.headD_cons, e2, List.length_cons, List.length_nil]
    rw [if_neg (by simp [hstar, hq])]
    rw [hn]
    dsimp only
    rw [hstep]

theorem getRange_validation_order_witness :
    getRange (['1','0'] ++ '-' :: (['2','0'] ++ '/' :: ['0'])) minutes =
      (if 10 < minutes.min then .error .rangeBelowMinimum
       else if minutes.max < 20 then .error .rangeAboveMaximum
       else if 20 < 10 then .error .rangeInverted
       else if 0 = 0 then .error .nonPositiveStep
       else .ok (getBits 10 20 0)) :=
  getRange_validation_order.1 minutes ['1','0'] ['2','0'] ['0'] 10 20 0
    (by decide) (by decide) (by decide) (by decide) (by decide) (by decide)
    (by decide) (by decide) (by decide)

/-- C9.  For every field bounds and every step `s > 1`, `getRange` on
`"*/s"` returns a bitmask with the star bit 63 set even though only the
value bits `min, min + s, ...` up to `max` are set: the star bit records
that the left-hand side was written as a wildcard, not that the result
covers the whole range. -/
theorem getRange_wildcard_step_star_bit (b : Bounds) (hminmax : b.min ≤ b.max)
    (hmax63 : b.max ≤ 63) (sStr : List Char) (s : Nat)
    (hstep : mustParseInt sStr = .ok s) (hs : 1 < s) :
    getRange ('*' :: '/' :: sStr) b = .ok (getBits b.min b.max s ||| starBit) ∧
    (getBits b.min b.max s ||| starBit).testBit 63 = true ∧
    ∀ i, i < 63 → (getBits b.min b.max s ||| starBit).testBit i =
      decide (b.min ≤ i ∧ i ≤ b.max ∧ (i - b.min) % s = 0) := by
  have hsl : '/' ∉ sStr := not_slash_of_mustParseInt hstep
  have e1 : splitOnChar '/' ('*' :: '/' :: sStr) = [['*'], sStr] := by
    have := splitOnChar_append_cons '/' ['*'] sStr (by decide)
    simpa [splitOnChar_of_not_mem hsl] using this
  refine ⟨?_, ?_, ?_⟩
  · simp only [getRange, e1, List.headD_cons]
    rw [splitOnChar_of_not_mem (by decide : '-' ∉ ['*'])]
    simp only [List.headD_cons, List.length_cons, List.length_nil]
    rw [if_pos (Or.inl trivial)]
    dsimp only
    rw [hstep]
    dsimp only
    simp only [ite_self]
    rw [if_neg (by omega : ¬b.min < b.min), if_neg (by omega : ¬b.max < b.max),
      if_neg (by omega : ¬b.max < b.min), if_neg (by omega : ¬(s = 0))]
  · rw [Nat.testBit_or, show starBit = 2 ^ 63 from rfl, Nat.testBit_two_pow_self,
      Bool.or_true]
  · intro i hi
    rw [Nat.testBit_or, getBits_testBit (by omega) (by omega) hmax63 i,
      show starBit = 2 ^ 63 from rfl, Nat.testBit_two_pow_of_ne (by omega), Bool.or_false]

theorem getRange_wildcard_step_star_bit_witness :
    getRange ('*' :: '/' :: ['7']) minutes = .ok (getBits minutes.min minutes.max 7 ||| starBit) ∧
    (getBits minutes.min minutes.max 7 ||| starBit).testBit 63 = true ∧
    ∀ i, i < 63 → (getBits minutes.min minutes.max 7 ||| starBit).testBit i =
      decide (minutes.min ≤ i ∧ i ≤ minutes.max ∧ (i - minutes.min) % 7 = 0) :=
  getRange_wildcard_step_star_bit minutes (by decide) (by decide) ['7'] 7 (by decide) (by decide)


end Cron
